import Mathlib

/-!
Verification of the tracing / metrics toolkit.

This file gives a shallow embedding, in Lean 4, of the two Python modules of
the repository:

* `src/sweagent/tracer.py` — the span recorder, the dynamic instrumentation
  registry (`instrument_class` / `restore`), and the exporter (`save`);
* `src/traces/evaluate_trace.py` — the metrics compiler (`load_rows`,
  `compute_metrics`).

Machine integers are modelled as `Int` (Python integers are unbounded), float
arithmetic on derived metrics as exact rationals (`Rat`), fallible code as
`Except` / `Option`, and the mutable tracer state as explicit state passing.
Python's stable `list.sort` is modelled by a stable insertion sort, and
Python's `int(...)` string parsing by an executable sign-and-digits parser
(whitespace stripped; digit-grouping underscores are not modelled).
-/

namespace Evaluate

/-- Flattened view of one exported span, as loaded by `load_rows`
(`evaluate_trace.py`, `class Row`). -/
structure Row where
  kind : String
  name : String
  wall_ns : Int
deriving Repr, DecidableEq

/-- Per-label aggregate (`evaluate_trace.py`, `class ApiMetrics`).
`mean_ns` is a Python float, modelled as an exact rational. -/
structure ApiMetrics where
  name : String
  count : Nat
  cumulative_ns : Int
  mean_ns : Rat
deriving Repr, DecidableEq

/-- Run-level aggregate (`evaluate_trace.py`, `class RunSummary`). -/
structure RunSummary where
  program_duration_ns : Option Int
  api_cumulative_ns : Int
  non_api_ns : Option Int
  api_share_pct : Option Rat
deriving Repr, DecidableEq

/-- Key order of the `by_name` dict built by `compute_metrics`: Python dicts
iterate in insertion order, so the keys are the distinct names of `api` rows
in order of first appearance.  `seen` accumulates names already present. -/
def apiNamesGo : List Row → List String → List String
  | [], _ => []
  | r :: rest, seen =>
    if r.kind == ("api") && !(seen.contains r.name) then
      r.name :: apiNamesGo rest (r.name :: seen)
    else
      apiNamesGo rest seen

/-- Distinct `api` names in first-seen order (the iteration order of
`by_name.items()` in `compute_metrics`). -/
def apiNames (rows : List Row) : List String :=
  apiNamesGo rows []

/-- The wall times collected under one key of the `by_name` dict:
`by_name[r.name].append(r.wall_ns)` for each `api` row, in row order. -/
def apiWalls (rows : List Row) (n : String) : List Int :=
  (rows.filter (fun r => r.kind == ("api") && r.name == n)).map (·.wall_ns)

/-- One entry of the `per_api` list built by `compute_metrics`:
`total = sum(walls)`, `count = len(walls)`,
`mean = total / count if count else 0.0`. -/
def mkApiMetrics (rows : List Row) (n : String) : ApiMetrics :=
  let walls := apiWalls rows n
  let total := walls.sum
  let count := walls.length
  { name := n, count := count, cumulative_ns := total,
    mean_ns := if count ≠ 0 then (total : Rat) / (count : Rat) else 0 }

/-- One step of the stable descending insertion sort modelling
`per_api.sort(key=lambda m: m.cumulative_ns, reverse=True)`: `x` is placed
before the first element whose key is not strictly greater, so among equal
keys the element inserted earlier (first seen) stays first — exactly the
stability contract of Python's sort. -/
def insertDesc (x : ApiMetrics) : List ApiMetrics → List ApiMetrics
  | [] => [x]
  | y :: ys => if x.cumulative_ns < y.cumulative_ns then y :: insertDesc x ys else x :: y :: ys

/-- Stable sort by `cumulative_ns` descending (model of Python's stable
`list.sort(..., reverse=True)`). -/
def sortDesc : List ApiMetrics → List ApiMetrics
  | [] => []
  | x :: xs => insertDesc x (sortDesc xs)

/-- The list comprehension `[r.wall_ns for r in rows if r.kind == "program" and
r.name == "entire_run"]` from `compute_metrics`. -/
def entireRunWalls (rows : List Row) : List Int :=
  (rows.filter (fun r => r.kind == ("program") && r.name == ("entire_run"))).map (·.wall_ns)

/-- The list comprehension `[r.wall_ns for r in rows if r.kind == "program"]`
from `compute_metrics`. -/
def programWalls (rows : List Row) : List Int :=
  (rows.filter (fun r => r.kind == ("program"))).map (·.wall_ns)

/-- Shallow embedding of `compute_metrics` (`evaluate_trace.py`, lines 77-116),
translated clause by clause from the source. -/
def compute_metrics (rows : List Row) : List ApiMetrics × RunSummary :=
  let per_api := sortDesc ((apiNames rows).map (mkApiMetrics rows))
  let program_spans0 := entireRunWalls rows
  let program_spans := if program_spans0.isEmpty then programWalls rows else program_spans0
  let program_ns : Option Int := program_spans.max?
  let api_total := (per_api.map (·.cumulative_ns)).sum
  let non_api : Option Int :=
    match program_ns with
    | some p => some (p - api_total)
    | none => none
  let share : Option Rat :=
    match program_ns with
    | some p => some (if 0 < p then (api_total : Rat) / (p : Rat) * 100 else 0)
    | none => none
  (per_api,
   { program_duration_ns := program_ns, api_cumulative_ns := api_total,
     non_api_ns := non_api, api_share_pct := share })

/-- Position of the input row in which an api label first occurs: the index of
the first row of kind "api" carrying that name (the first-seen position the
stable sort must respect on ties). -/
def fIdxApi (rows : List Row) (n : String) : Nat :=
  rows.findIdx (fun r => r.kind == ("api") && r.name == n)


/-- Python `str.strip()` on a character list: whitespace dropped from both
ends (performed by `int()` before parsing). -/
def pyStrip (l : List Char) : List Char :=
  ((l.dropWhile Char.isWhitespace).reverse.dropWhile Char.isWhitespace).reverse

/-- Numeric value of a decimal digit character. -/
def digitVal (c : Char) : Nat := c.toNat - 48

/-- Decoding of a nonempty run of decimal digits, most significant first. -/
def decDigits? (ds : List Char) : Option Nat :=
  if !ds.isEmpty && ds.all Char.isDigit then
    some (ds.foldl (fun a c => 10 * a + digitVal c) 0)
  else none

/-- Model of Python `int(str)`: strip surrounding whitespace, optional sign,
then decimal digits; `none` where Python raises `ValueError`.  (Digit-grouping
underscores are not modelled.) -/
def pyIntChars? (l : List Char) : Option Int :=
  match pyStrip l with
  | [] => none
  | c :: cs =>
    if c = '-' then (decDigits? cs).map (fun n => -(n : Int))
    else if c = '+' then (decDigits? cs).map (fun n => (n : Int))
    else (decDigits? (c :: cs)).map (fun n => (n : Int))

/-- Model of Python `int(str)` on strings. -/
def pyInt? (s : String) : Option Int :=
  pyIntChars? s.data

/-- One raw CSV record as `csv.DictReader` presents it to `load_rows`: a
required column absent from the file maps to `none` (touching it raises). -/
structure RawRec where
  kind : Option String
  name : Option String
  wall_ns : Option String
deriving Repr, DecidableEq

/-- Body of the `load_rows` loop for one record: `rec["kind"]`, `rec["name"]`
and `int(rec["wall_ns"])`.  A missing required field or an unparsable integer
raises, modelled as `Except.error` carrying the exception name. -/
def parse_row (rec : RawRec) : Except String Row :=
  match rec.kind, rec.name, rec.wall_ns with
  | some k, some n, some w =>
    match pyInt? w with
    | some i => Except.ok { kind := k, name := n, wall_ns := i }
    | none => Except.error ("ValueError")
  | _, _, _ => Except.error ("KeyError")

/-- Shallow embedding of `load_rows` (`evaluate_trace.py`, lines 47-59):
records are parsed in file order; the first raised error aborts the whole
call, so either every row is returned or none is. -/
def load_rows : List RawRec → Except String (List Row)
  | [] => Except.ok []
  | rec :: rest =>
    match parse_row rec with
    | Except.ok r =>
      match load_rows rest with
      | Except.ok rs => Except.ok (r :: rs)
      | Except.error e => Except.error e
    | Except.error e => Except.error e

end Evaluate

namespace Tracer

/-- Immutable span record (`tracer.py`, `class Span`).  `meta` is the open
string-keyed metadata map; values are modelled as strings since downstream
code only round-trips them. -/
structure Span where
  kind : String
  name : String
  start_ns : Int
  end_ns : Int
  wall_ns : Int
  cpu_start_ns : Int
  cpu_end_ns : Int
  cpu_ns : Int
  meta : List (String × String)
deriving Repr, DecidableEq

/-- Mutable state visible to a recorder: the two clocks read by
`perf_counter_ns` / `process_time_ns` (advanced arbitrarily by the recorded
work) and the span ledger `_spans`. -/
structure TState where
  wallClock : Int
  cpuClock : Int
  spans : List Span
deriving Repr, DecidableEq

/-- Outcome of a piece of Python work: a returned value, or a raised
exception identified by name (cancellation is itself an exception). -/
inductive PyOutcome (α : Type) where
  | ok (a : α)
  | exn (e : String)
deriving Repr, DecidableEq

/-- A Python computation as state transformer: it may mutate the tracer
state (advance clocks, append nested spans) and finish on either exit path. -/
def PyM (α : Type) : Type :=
  TState → TState × PyOutcome α

/-- Shallow embedding of `Tracer.span` (`tracer.py`, lines 43-55): read both
clocks, run the body, and in the `finally` clause — reached on every exit
path — append exactly one `Span` built from the clock deltas, then let the
body's outcome (value or exception) propagate unchanged. -/
def span (name : String) (kind : String) (meta : List (String × String))
    (body : PyM α) : PyM α :=
  fun t =>
    let ws := t.wallClock
    let cs := t.cpuClock
    match body t with
    | (t', r) =>
      let s : Span :=
        { kind := kind, name := name, start_ns := ws, end_ns := t'.wallClock,
          wall_ns := t'.wallClock - ws, cpu_start_ns := cs, cpu_end_ns := t'.cpuClock,
          cpu_ns := t'.cpuClock - cs, meta := meta }
      ({ t' with spans := t'.spans ++ [s] }, r)

/-- Shallow embedding of the synchronous wrapper body installed by
`Tracer._wrap_callable` (`tracer.py`, lines 112-122): identical try/finally
shape, kind fixed to "api". -/
def wrapCallRun (label : String) (meta : List (String × String))
    (body : PyM α) : PyM α :=
  fun t =>
    let ws := t.wallClock
    let cs := t.cpuClock
    match body t with
    | (t', r) =>
      let s : Span :=
        { kind := ("api"), name := label, start_ns := ws, end_ns := t'.wallClock,
          wall_ns := t'.wallClock - ws, cpu_start_ns := cs, cpu_end_ns := t'.cpuClock,
          cpu_ns := t'.cpuClock - cs, meta := meta }
      ({ t' with spans := t'.spans ++ [s] }, r)

/-- A Python attribute value: a plain callable, a wrapper installed by
`_wrap_callable` (carrying its recording label), or a non-callable
attribute. -/
inductive PyVal where
  | func (id : Nat)
  | wrapped (label : String) (fn : PyVal)
  | attr (id : Nat)
deriving Repr, DecidableEq

/-- Python `callable(...)` on the modelled values. -/
def PyVal.callable : PyVal → Bool
  | func _ => true
  | wrapped _ _ => true
  | attr _ => false

/-- The attribute table of one class object. -/
abbrev Bindings := List (String × PyVal)

/-- `getattr(cls, n, None)` on the modelled attribute table. -/
def getattrB (b : Bindings) (n : String) : Option PyVal :=
  (b.find? (fun p => p.1 == n)).map (·.2)

/-- `setattr(cls, n, v)`: replace the binding in place, or append a new
one. -/
def setattrB : Bindings → String → PyVal → Bindings
  | [], n, v => [(n, v)]
  | (m, w) :: rest, n, v =>
    if m == n then (m, v) :: rest else (m, w) :: setattrB rest n v

/-- Instrumentation-relevant tracer state: the instrumented class's attribute
table and the `_patches` stack (append at the end, pop from the end). -/
structure IState where
  cls : Bindings
  patches : List (String × PyVal)
deriving Repr, DecidableEq

/-- Python `n.startswith("_")` for the one-character prefix used by
`instrument_class`: the first character is an underscore.  (Modelled on the
character list; `String.startsWith` is opaque to kernel reduction.) -/
def startsUnderscore (n : String) : Bool :=
  match n.data with
  | [] => false
  | c :: _ => c == ('_')

/-- Public member names: `[n for n in dir(cls) if not n.startswith("_")]`
(`dir` enumeration modelled in declaration order; no claim depends on dir's
alphabetical ordering). -/
def publicNames (b : Bindings) : List String :=
  (b.map (·.1)).filter (fun n => !(startsUnderscore n))

/-- Default `exclude` argument of `instrument_class`. -/
def defaultExclude : List String :=
  [("__init__"), ("__repr__"), ("__str__"), ("__eq__"), ("__hash__")]

/-- Effect of `Tracer._wrap_callable` on the bindings and the patch stack
(`tracer.py`, lines 124-127): save `original = getattr(owner, attr)`, install
the wrapper, append the patch record.  The `none` branch is unreachable from
`instrument_class`, which only wraps attributes it has just resolved. -/
def wrap_callable (st : IState) (attr : String) (label : String) (fn : PyVal) : IState :=
  match getattrB st.cls attr with
  | some original =>
    { cls := setattrB st.cls attr (PyVal.wrapped label fn),
      patches := st.patches ++ [(attr, original)] }
  | none => st

/-- Candidate selection of `instrument_class`:
`methods = include or [n for n in dir(cls) if not n.startswith("_")]`.
Python's `or` treats an empty include list as absent. -/
def candidates (b : Bindings) (incl : Option (List String)) : List String :=
  match incl with
  | some l => if l.isEmpty then publicNames b else l
  | none => publicNames b

/-- Base of the recording label: Python's `name_prefix or cls.__name__`
(`tracer.py`, line 142) — a truthiness fallback, so both `None` and the empty
string fall back to the class name. -/
def labelBase (pre : Option String) (clsName : String) : String :=
  match pre with
  | some p => if p.isEmpty then clsName else p
  | none => clsName

/-- Loop body of `instrument_class` for one candidate name: skip excluded
names, resolve with `getattr(cls, n, None)`, wrap only callables under label
`f"{name_prefix or cls.__name__}.{n}"`. -/
def instrStep (clsName : String) (excl : List String) (pre : Option String)
    (st : IState) (n : String) : IState :=
  if excl.contains n then st
  else
    match getattrB st.cls n with
    | some obj =>
      if obj.callable then
        wrap_callable st n ((labelBase pre clsName) ++ (".") ++ n) obj
      else st
    | none => st

/-- Shallow embedding of `Tracer.instrument_class` (`tracer.py`, lines
129-144) over one class object. -/
def instrument_class (st : IState) (clsName : String) (incl : Option (List String))
    (excl : List String) (pre : Option String) : IState :=
  (candidates st.cls incl).foldl (instrStep clsName excl pre) st

/-- Shallow embedding of `Tracer.restore` (`tracer.py`, lines 159-163): pop
patch records from the end of the stack, last installed first, rebinding each
saved original; the stack ends empty. -/
def restore (st : IState) : IState :=
  { cls := st.patches.foldr (fun p b => setattrB b p.1 p.2) st.cls, patches := [] }

/-- Selection predicate of the (amended) C2 statement: not excluded, and
resolving to a callable currently bound on the class. -/
def okName (b : Bindings) (excl : List String) (n : String) : Bool :=
  !(excl.contains n) &&
    (match getattrB b n with
     | some v => v.callable
     | none => false)

/-- Decimal digit characters of a natural number, most significant first
(Python `str` of a nonnegative integer). -/
def natChars (n : Nat) : List Char :=
  if n = 0 then [('0')] else ((Nat.digits 10 n).map Nat.digitChar).reverse

/-- Python `str(int)`: optional minus sign, then decimal digits. -/
def intChars (i : Int) : List Char :=
  if i < 0 then ('-') :: natChars i.natAbs else natChars i.toNat

/-- Python `str(int)` as a Lean string. -/
def istr (i : Int) : String :=
  String.mk (intChars i)

/-- `json.dumps` of the metadata map (string escaping not modelled; the
claims never inspect this column). -/
def metaJson (m : List (String × String)) : String :=
  "\x7b" ++ String.intercalate (", ")
    (m.map (fun p => "\"" ++ p.1 ++ "\": \"" ++ p.2 ++ "\"")) ++ "\x7d"

/-- The fixed CSV header written by `Tracer.save`. -/
def csv_header : List String :=
  [("kind"), ("name"), ("start_ns"), ("end_ns"), ("wall_ns"),
   ("cpu_start_ns"), ("cpu_end_ns"), ("cpu_ns"), ("meta")]

/-- One CSV data row of `Tracer.save`: all span fields as text, in header
order, integers via `str`, meta via `json.dumps`. -/
def csvCells (s : Span) : List String :=
  [s.kind, s.name, istr s.start_ns, istr s.end_ns, istr s.wall_ns,
   istr s.cpu_start_ns, istr s.cpu_end_ns, istr s.cpu_ns, metaJson s.meta]

/-- Tabular export of `Tracer.save` (`tracer.py`, lines 166-176): header row,
then one row per span in ledger order. -/
def save_csv (spans : List Span) : List (List String) :=
  csv_header :: spans.map csvCells

/-- One object of the structured (JSON) export: the same fields with native
values. -/
structure JsonSpan where
  kind : String
  name : String
  start_ns : Int
  end_ns : Int
  wall_ns : Int
  cpu_start_ns : Int
  cpu_end_ns : Int
  cpu_ns : Int
  meta : List (String × String)
deriving Repr, DecidableEq

/-- `asdict(s)` as used by the JSON branch of `Tracer.save`. -/
def asdictJson (s : Span) : JsonSpan :=
  ⟨s.kind, s.name, s.start_ns, s.end_ns, s.wall_ns, s.cpu_start_ns, s.cpu_end_ns,
   s.cpu_ns, s.meta⟩

/-- Structured export of `Tracer.save` (`tracer.py`, lines 177-178): the span
dictionaries in ledger order. -/
def save_json (spans : List Span) : List JsonSpan :=
  spans.map asdictJson

/-- `csv.DictReader` column lookup: pair the header with a data row and find
a column by name (`none` when the column is absent). -/
def dictGet (hdr cells : List String) (key : String) : Option String :=
  ((hdr.zip cells).find? (fun p => p.1 == key)).map (·.2)

/-- `csv.DictReader` over a tabular file: each data row becomes the raw
record consumed by the evaluator. -/
def read_raw (tbl : List (List String)) : List Evaluate.RawRec :=
  match tbl with
  | [] => []
  | hdr :: data =>
    data.map (fun cells =>
      { kind := dictGet hdr cells ("kind"), name := dictGet hdr cells ("name"),
        wall_ns := dictGet hdr cells ("wall_ns") })

/-- Decoding a tabular export to its (kind, name, wall_ns) sequence through
the evaluator's own loader. -/
def decode_tabular (tbl : List (List String)) :
    Except String (List (String × String × Int)) :=
  (Evaluate.load_rows (read_raw tbl)).map
    (fun rows => rows.map (fun r => (r.kind, r.name, r.wall_ns)))

/-- Decoding the structured export to its (kind, name, wall_ns) sequence. -/
def decode_structured (objs : List JsonSpan) : List (String × String × Int) :=
  objs.map (fun o => (o.kind, o.name, o.wall_ns))

/-- Projection of a ledger span to the fields compared by the round-trip
claim. -/
def spanTriple (s : Span) : String × String × Int :=
  (s.kind, s.name, s.wall_ns)

end Tracer

/-- A run with two api labels tied on cumulative wall time. -/
def demoTieRows : List Evaluate.Row :=
  [⟨("api"), ("X"), 5⟩, ⟨("api"), ("Y"), 5⟩]

/-- The aggregation example: the four input rows of the spec. -/
def demoRows : List Evaluate.Row :=
  [⟨("api"), ("A"), 100⟩, ⟨("api"), ("A"), 300⟩, ⟨("api"), ("B"), 50⟩,
   ⟨("program"), ("entire_run"), 1000⟩]

/-- A run whose only program span has zero wall time. -/
def demoZeroRows : List Evaluate.Row :=
  [⟨("program"), ("entire_run"), 0⟩]

/-- A raw record whose wall_ns field does not parse as an integer. -/
def demoBadRec : Evaluate.RawRec :=
  ⟨some ("api"), some ("A"), some ("12x")⟩

/-- A raw record list containing the malformed record. -/
def demoBadRecs : List Evaluate.RawRec :=
  [⟨some ("api"), some ("B"), some ("7")⟩, demoBadRec]

/-- C1: on the row list [(api,"A",100),(api,"A",300),(api,"B",50),
(program,"entire_run",1000)], `compute_metrics` yields per-label metrics
A = \x7bcount 2, cumulative 400, mean 200\x7d and B = \x7bcount 1,
cumulative 50, mean 50\x7d, and a run summary with program_duration_ns 1000,
api_cumulative_ns 450, non_api_ns 550 and api_share_pct 45. -/
theorem C1_aggregation_example :
    Evaluate.compute_metrics demoRows =
      ([⟨("A"), 2, 400, 200⟩, ⟨("B"), 1, 50, 50⟩],
       ⟨some 1000, 450, some 550, some 45⟩) := by
  simp [Evaluate.compute_metrics, Evaluate.apiNames, Evaluate.apiNamesGo,
    Evaluate.apiWalls, Evaluate.mkApiMetrics, Evaluate.sortDesc, Evaluate.insertDesc,
    Evaluate.entireRunWalls, Evaluate.programWalls, demoRows, List.filter_cons, List.max?]
  norm_num

/-- C4: program_duration_ns is the maximum wall_ns among program rows named
"entire_run", else the maximum among all program rows, else absent; it is
absent exactly when no program-kind row exists, and non_api_ns and
api_share_pct are absent exactly when program_duration_ns is absent. -/
theorem C4_program_duration (rows : List Evaluate.Row) :
    (∀ m : Int, (Evaluate.compute_metrics rows).2.program_duration_ns = some m ↔
      ((Evaluate.entireRunWalls rows ≠ [] ∧ m ∈ Evaluate.entireRunWalls rows ∧
          ∀ x ∈ Evaluate.entireRunWalls rows, x ≤ m) ∨
       (Evaluate.entireRunWalls rows = [] ∧ m ∈ Evaluate.programWalls rows ∧
          ∀ x ∈ Evaluate.programWalls rows, x ≤ m)))
    ∧ ((Evaluate.compute_metrics rows).2.program_duration_ns = none ↔
        Evaluate.programWalls rows = [])
    ∧ ((Evaluate.compute_metrics rows).2.non_api_ns = none ↔
        (Evaluate.compute_metrics rows).2.program_duration_ns = none)
    ∧ ((Evaluate.compute_metrics rows).2.api_share_pct = none ↔
        (Evaluate.compute_metrics rows).2.program_duration_ns = none) := by
  haveI : Std.Antisymm ((· : Int) ≤ ·) := ⟨fun h₁ h₂ => le_antisymm h₁ h₂⟩
  have hmax : ∀ (l : List Int) (m : Int), l.max? = some m ↔ m ∈ l ∧ ∀ x ∈ l, x ≤ m := by
    intro l m
    exact List.max?_eq_some_iff (fun a => le_refl a) (fun a b => max_choice a b)
      (fun a b c => max_le_iff)
  have hsub : Evaluate.entireRunWalls rows ≠ [] → Evaluate.programWalls rows ≠ [] := by
    intro h hp
    apply h
    simp only [Evaluate.entireRunWalls, Evaluate.programWalls, List.map_eq_nil_iff,
      List.filter_eq_nil_iff] at hp ⊢
    intro r hr hcond
    exact hp r hr (by simp_all)
  simp only [Evaluate.compute_metrics]
  by_cases he : Evaluate.entireRunWalls rows = []
  · simp only [he, List.isEmpty_nil, if_true]
    refine ⟨fun m => ?_, ?_, ?_, ?_⟩
    · rw [hmax]
      simp [he]
    · simp
    · cases (Evaluate.programWalls rows).max? <;> simp
    · cases (Evaluate.programWalls rows).max? <;> simp
  · have hb : (Evaluate.entireRunWalls rows).isEmpty = false := by
      simpa [List.isEmpty_iff] using he
    simp only [hb, Bool.false_eq_true, if_false]
    refine ⟨fun m => ?_, ?_, ?_, ?_⟩
    · rw [hmax]
      simp [he]
    · simp only [List.max?_eq_none_iff, he, false_iff]
      exact hsub he
    · cases (Evaluate.entireRunWalls rows).max? <;> simp
    · cases (Evaluate.entireRunWalls rows).max? <;> simp

/-- C4 witness: on the aggregation example the program duration is the
maximum (1000) of the single entire_run row. -/
theorem C4_program_duration_witness :
    (Evaluate.compute_metrics demoRows).2.program_duration_ns = some 1000 :=
  ((C4_program_duration demoRows).1 1000).mpr (Or.inl (by decide))

/-- C6: when program_duration_ns is present and zero, api_share_pct is 0
(no error, no NaN); when it is present and positive, api_share_pct is
100 × api_cumulative_ns / program_duration_ns. -/
theorem C6_division_guard (rows : List Evaluate.Row) :
    ((Evaluate.compute_metrics rows).2.program_duration_ns = some 0 →
      (Evaluate.compute_metrics rows).2.api_share_pct = some 0)
    ∧ ∀ p : Int, (Evaluate.compute_metrics rows).2.program_duration_ns = some p → 0 < p →
      (Evaluate.compute_metrics rows).2.api_share_pct =
        some (100 * ((Evaluate.compute_metrics rows).2.api_cumulative_ns : Rat) / (p : Rat)) := by
  simp only [Evaluate.compute_metrics]
  cases hq : (if (Evaluate.entireRunWalls rows).isEmpty then Evaluate.programWalls rows
      else Evaluate.entireRunWalls rows).max? with
  | none => simp
  | some q =>
    constructor
    · intro h
      have : q = 0 := by simpa using h
      subst this
      simp
    · intro p hp hpos
      have : q = p := by simpa using hp
      subst this
      simp only [Option.some.injEq]
      rw [if_pos hpos]
      ring

/-- C6 witness: a zero-duration program yields share 0, and the aggregation
example (duration 1000) yields the exact quotient formula. -/
theorem C6_division_guard_witness :
    (Evaluate.compute_metrics demoZeroRows).2.api_share_pct = some 0 ∧
    (Evaluate.compute_metrics demoRows).2.api_share_pct =
      some (100 * ((Evaluate.compute_metrics demoRows).2.api_cumulative_ns : Rat) / (1000 : Rat)) :=
  ⟨(C6_division_guard demoZeroRows).1 (by decide),
   (C6_division_guard demoRows).2 1000 (by decide) (by norm_num)⟩

namespace Evaluate

/-- Membership in an insertion step: inserting adds exactly `x`. -/
theorem mem_insertDesc {x a : ApiMetrics} {l : List ApiMetrics} :
    a ∈ insertDesc x l ↔ a = x ∨ a ∈ l := by
  induction l with
  | nil => simp [insertDesc]
  | cons y ys ih =>
    simp only [insertDesc]
    by_cases hlt : x.cumulative_ns < y.cumulative_ns
    · rw [if_pos hlt]
      simp only [List.mem_cons, ih]
      tauto
    · rw [if_neg hlt]
      simp only [List.mem_cons]

/-- Membership is preserved by the full sort. -/
theorem mem_sortDesc {a : ApiMetrics} {l : List ApiMetrics} :
    a ∈ sortDesc l ↔ a ∈ l := by
  induction l with
  | nil => simp [sortDesc]
  | cons x xs ih => simp [sortDesc, mem_insertDesc, ih]

/-- Stability transport for one insertion: any pairwise relation that is
implied by a strict descent of the key survives inserting `x`, because the
elements `x` jumps over are exactly those with strictly larger key. -/
theorem insertDesc_pairwise {R : ApiMetrics → ApiMetrics → Prop} {x : ApiMetrics}
    {l : List ApiMetrics}
    (h : (x :: l).Pairwise fun a b => b.cumulative_ns < a.cumulative_ns ∨ R a b) :
    (insertDesc x l).Pairwise fun a b => b.cumulative_ns < a.cumulative_ns ∨ R a b := by
  induction l with
  | nil => simp [insertDesc]
  | cons y ys ih =>
    rw [List.pairwise_cons] at h
    have hy := List.pairwise_cons.mp h.2
    simp only [insertDesc]
    by_cases hlt : x.cumulative_ns < y.cumulative_ns
    · rw [if_pos hlt]
      rw [List.pairwise_cons]
      constructor
      · intro z hz
        rcases mem_insertDesc.mp hz with rfl | hzys
        · exact Or.inl hlt
        · exact hy.1 z hzys
      · apply ih
        rw [List.pairwise_cons]
        exact ⟨fun b hb => h.1 b (List.mem_cons_of_mem _ hb), hy.2⟩
    · rw [if_neg hlt]
      rw [List.pairwise_cons]
      exact ⟨h.1, h.2⟩

/-- Stability transport for the full sort. -/
theorem sortDesc_pairwise {R : ApiMetrics → ApiMetrics → Prop} {l : List ApiMetrics}
    (h : l.Pairwise fun a b => b.cumulative_ns < a.cumulative_ns ∨ R a b) :
    (sortDesc l).Pairwise fun a b => b.cumulative_ns < a.cumulative_ns ∨ R a b := by
  induction l with
  | nil => simp [sortDesc]
  | cons x xs ih =>
    rw [List.pairwise_cons] at h
    simp only [sortDesc]
    apply insertDesc_pairwise
    rw [List.pairwise_cons]
    exact ⟨fun b hb => h.1 b (mem_sortDesc.mp hb), ih h.2⟩

/-- Inserting into a descending list keeps it descending. -/
theorem insertDesc_sorted {x : ApiMetrics} {l : List ApiMetrics}
    (h : l.Pairwise fun a b => b.cumulative_ns ≤ a.cumulative_ns) :
    (insertDesc x l).Pairwise fun a b => b.cumulative_ns ≤ a.cumulative_ns := by
  induction l with
  | nil => simp [insertDesc]
  | cons y ys ih =>
    rw [List.pairwise_cons] at h
    simp only [insertDesc]
    by_cases hlt : x.cumulative_ns < y.cumulative_ns
    · rw [if_pos hlt]
      rw [List.pairwise_cons]
      refine ⟨?_, ih h.2⟩
      intro z hz
      rcases mem_insertDesc.mp hz with rfl | hzys
      · exact le_of_lt hlt
      · exact h.1 z hzys
    · rw [if_neg hlt]
      rw [List.pairwise_cons]
      refine ⟨?_, List.pairwise_cons.mpr h⟩
      intro z hz
      rcases List.mem_cons.mp hz with rfl | hzys
      · exact le_of_not_lt hlt
      · exact le_trans (h.1 z hzys) (le_of_not_lt hlt)

/-- The sort output is descending in cumulative_ns. -/
theorem sortDesc_sorted (l : List ApiMetrics) :
    (sortDesc l).Pairwise fun a b => b.cumulative_ns ≤ a.cumulative_ns := by
  induction l with
  | nil => simp [sortDesc]
  | cons x xs ih =>
    simp only [sortDesc]
    exact insertDesc_sorted ih

/-- Every name produced by the dict-key walk was not yet seen. -/
theorem apiNamesGo_not_seen {rows : List Row} {seen : List String} {n : String}
    (h : n ∈ apiNamesGo rows seen) : ¬ n ∈ seen := by
  induction rows generalizing seen with
  | nil => simp [apiNamesGo] at h
  | cons r rest ih =>
    simp only [apiNamesGo] at h
    by_cases hc : (r.kind == ("api") && !(seen.contains r.name)) = true
    · rw [if_pos hc] at h
      rcases List.mem_cons.mp h with rfl | h2
      · have h2 := (Bool.and_eq_true _ _).mp hc |>.2
        simp only [Bool.not_eq_eq_eq_not, Bool.not_true, List.contains, List.elem_eq_mem,
          decide_eq_false_iff_not] at h2
        exact h2
      · have h3 := ih h2
        simp only [List.mem_cons, not_or] at h3
        exact h3.2
    · rw [if_neg hc] at h
      exact ih h

/-- The dict-key walk lists names in strictly increasing first-seen order. -/
theorem apiNamesGo_pairwise (rows : List Row) (seen : List String) :
    (apiNamesGo rows seen).Pairwise fun a b =>
      rows.findIdx (fun r => r.kind == ("api") && r.name == a) <
      rows.findIdx (fun r => r.kind == ("api") && r.name == b) := by
  induction rows generalizing seen with
  | nil => simp [apiNamesGo]
  | cons r rest ih =>
    simp only [apiNamesGo]
    by_cases hc : (r.kind == ("api") && !(seen.contains r.name)) = true
    · rw [if_pos hc]
      have hkind : r.kind == ("api") := ((Bool.and_eq_true _ _).mp hc).1
      rw [List.pairwise_cons]
      constructor
      · intro b hb
        have hbne : b ≠ r.name := by
          have := apiNamesGo_not_seen hb
          simp only [List.mem_cons, not_or] at this
          exact fun hEq => this.1 hEq
        rw [List.findIdx_cons, List.findIdx_cons]
        have hpa : (r.kind == ("api") && r.name == r.name) = true := by
          simp [hkind]
        have hpb : (r.kind == ("api") && r.name == b) = false := by
          simp only [Bool.and_eq_false_iff]
          right
          simpa [beq_iff_eq] using fun hEq => hbne hEq.symm
        rw [hpa, hpb]
        simp
      · apply (ih (r.name :: seen)).imp_of_mem
        intro a b ha hb hab
        have hane : a ≠ r.name := by
          have := apiNamesGo_not_seen ha
          simp only [List.mem_cons, not_or] at this
          exact this.1
        have hbne : b ≠ r.name := by
          have := apiNamesGo_not_seen hb
          simp only [List.mem_cons, not_or] at this
          exact this.1
        rw [List.findIdx_cons, List.findIdx_cons]
        have hpa : (r.kind == ("api") && r.name == a) = false := by
          simp only [Bool.and_eq_false_iff]
          right
          simpa [beq_iff_eq] using fun hEq => hane hEq.symm
        have hpb : (r.kind == ("api") && r.name == b) = false := by
          simp only [Bool.and_eq_false_iff]
          right
          simpa [beq_iff_eq] using fun hEq => hbne hEq.symm
        rw [hpa, hpb]
        simpa using hab
    · rw [if_neg hc]
      apply (ih seen).imp_of_mem
      intro a b ha hb hab
      have hpz : ∀ z, z ∈ apiNamesGo rest seen →
          (r.kind == ("api") && r.name == z) = false := by
        intro z hz
        by_cases hk : r.kind == ("api")
        · have hseen : seen.contains r.name = true := by
            rcases Bool.eq_false_or_eq_true (seen.contains r.name) with ht | hf
            · exact ht
            · exact absurd (by simp only [hk, hf, Bool.not_false, Bool.and_self]) hc
          have hzne : z ≠ r.name := by
            have := apiNamesGo_not_seen hz
            intro hEq
            subst hEq
            simp only [List.contains, List.elem_eq_mem, decide_eq_true_eq] at hseen
            exact this hseen
          simp only [Bool.and_eq_false_iff]
          right
          simpa [beq_iff_eq] using fun hEq => hzne hEq.symm
        · simp only [Bool.and_eq_false_iff]
          left
          simpa using hk
      rw [List.findIdx_cons, List.findIdx_cons, hpz a ha, hpz b hb]
      simpa using hab

end Evaluate

/-- C5: the per-label records returned by `compute_metrics` are ordered by
cumulative_ns descending, and two records with equal cumulative_ns appear in
the order in which their labels are first seen among the input rows (stable
tie-breaking). -/
theorem C5_sort_stability (rows : List Evaluate.Row) :
    ((Evaluate.compute_metrics rows).1).Pairwise fun a b =>
      b.cumulative_ns ≤ a.cumulative_ns ∧
      (a.cumulative_ns = b.cumulative_ns →
        Evaluate.fIdxApi rows a.name < Evaluate.fIdxApi rows b.name) := by
  have hfst : (Evaluate.compute_metrics rows).1 =
      Evaluate.sortDesc ((Evaluate.apiNames rows).map (Evaluate.mkApiMetrics rows)) := rfl
  rw [hfst]
  have h0 : ((Evaluate.apiNames rows).map (Evaluate.mkApiMetrics rows)).Pairwise
      fun a b => Evaluate.fIdxApi rows a.name < Evaluate.fIdxApi rows b.name := by
    rw [List.pairwise_map]
    exact Evaluate.apiNamesGo_pairwise rows []
  have h1 := Evaluate.sortDesc_pairwise (h0.imp fun h => Or.inr h)
  have h2 := Evaluate.sortDesc_sorted
    ((Evaluate.apiNames rows).map (Evaluate.mkApiMetrics rows))
  refine (h2.and h1).imp ?_
  rintro a b ⟨hle, hor⟩
  refine ⟨hle, fun heq => ?_⟩
  rcases hor with hlt | hidx
  · omega
  · exact hidx

/-- C5 witness: the stability statement instantiated at a run with two labels
tied at cumulative 5. -/
theorem C5_sort_stability_witness :
    ((Evaluate.compute_metrics demoTieRows).1).Pairwise fun a b =>
      b.cumulative_ns ≤ a.cumulative_ns ∧
      (a.cumulative_ns = b.cumulative_ns →
        Evaluate.fIdxApi demoTieRows a.name < Evaluate.fIdxApi demoTieRows b.name) :=
  C5_sort_stability demoTieRows

/-- C7: if any record of the tabular input has a missing or unparsable
required field, the whole `load_rows` invocation fails with an error — no
partial row list is produced. -/
theorem C7_malformed_input_fatal (recs : List Evaluate.RawRec)
    (h : ∃ rec ∈ recs, ∃ e, Evaluate.parse_row rec = Except.error e) :
    ∃ e, Evaluate.load_rows recs = Except.error e := by
  induction recs with
  | nil => simp at h
  | cons r rs ih =>
    rcases h with ⟨rec, hm, e, he⟩
    rcases List.mem_cons.mp hm with rfl | hm2
    · exact ⟨e, by simp [Evaluate.load_rows, he]⟩
    · rcases ih ⟨rec, hm2, e, he⟩ with ⟨e', he'⟩
      cases hp : Evaluate.parse_row r with
      | ok v => exact ⟨e', by simp [Evaluate.load_rows, hp, he']⟩
      | error e2 => exact ⟨e2, by simp [Evaluate.load_rows, hp]⟩

/-- C7 witness: a list whose second record carries wall_ns "12x" makes the
whole load fail. -/
theorem C7_malformed_input_fatal_witness :
    ∃ e, Evaluate.load_rows demoBadRecs = Except.error e :=
  C7_malformed_input_fatal demoBadRecs
    ⟨demoBadRec, by simp [demoBadRecs], ("ValueError"), by rfl⟩

/-- C3: for both scoped recorders — the `span` context manager and the
wrapper installed on callables — exactly one Span is appended to the ledger
past the body's own appends, on every exit path (the outcome `r` ranges over
normal returns, raised errors and cancellations alike), and the body's
outcome propagates unchanged. -/
theorem C3_exactly_one_span {α : Type} (name kind label : String)
    (meta : List (String × String)) (body : Tracer.PyM α)
    (t t' : Tracer.TState) (r : Tracer.PyOutcome α) (h : body t = (t', r)) :
    ((Tracer.span name kind meta body t).1.spans =
        t'.spans ++ [⟨kind, name, t.wallClock, t'.wallClock, t'.wallClock - t.wallClock,
                      t.cpuClock, t'.cpuClock, t'.cpuClock - t.cpuClock, meta⟩] ∧
      (Tracer.span name kind meta body t).2 = r)
    ∧ ((Tracer.wrapCallRun label meta body t).1.spans =
        t'.spans ++ [⟨("api"), label, t.wallClock, t'.wallClock, t'.wallClock - t.wallClock,
                      t.cpuClock, t'.cpuClock, t'.cpuClock - t.cpuClock, meta⟩] ∧
      (Tracer.wrapCallRun label meta body t).2 = r) := by
  simp [Tracer.span, Tracer.wrapCallRun, h]

/-- C3 witness: a body that raises a cancellation still causes exactly one
appended span, and the cancellation propagates. -/
theorem C3_exactly_one_span_witness :
    (Tracer.span ("entire_run") ("program") []
        (fun t => (t, (Tracer.PyOutcome.exn ("CancelledError") : Tracer.PyOutcome Unit)))
        ⟨0, 0, []⟩).1.spans.length = 1 ∧
    (Tracer.span ("entire_run") ("program") []
        (fun t => (t, (Tracer.PyOutcome.exn ("CancelledError") : Tracer.PyOutcome Unit)))
        ⟨0, 0, []⟩).2 = Tracer.PyOutcome.exn ("CancelledError") := by
  have h := C3_exactly_one_span ("entire_run") ("program") ("lbl") []
    (fun t => (t, (Tracer.PyOutcome.exn ("CancelledError") : Tracer.PyOutcome Unit)))
    ⟨0, 0, []⟩ ⟨0, 0, []⟩ (Tracer.PyOutcome.exn ("CancelledError")) rfl
  refine ⟨?_, h.1.2⟩
  rw [h.1.1]
  rfl

namespace Tracer

/-- Re-installing the saved original over a fresh overwrite restores the
original attribute table exactly. -/
theorem setattrB_setattrB_orig {b : Bindings} {n : String} {u : PyVal}
    (h : getattrB b n = some u) (v : PyVal) :
    setattrB (setattrB b n v) n u = b := by
  induction b with
  | nil => simp [getattrB] at h
  | cons p rest ih =>
    obtain ⟨m, w⟩ := p
    by_cases hmn : (m == n) = true
    · have hw : u = w := by
        simp only [getattrB] at h
        rw [List.find?_cons_of_pos _ (by simpa using hmn)] at h
        simpa using h.symm
      subst hw
      simp [setattrB, hmn]
    · have hrec : getattrB rest n = some u := by
        simp only [getattrB] at h ⊢
        rwa [List.find?_cons_of_neg _ (by simpa using hmn)] at h
      simp [setattrB, hmn, ih hrec]

/-- One instrumentation step leaves the "fold the patch stack back over the
bindings" value invariant: whatever the step wraps, popping its patch record
first undoes it. -/
theorem instrStep_undo (clsName : String) (excl : List String) (pre : Option String)
    (st : IState) (n : String) :
    (instrStep clsName excl pre st n).patches.foldr
        (fun p b => setattrB b p.1 p.2) (instrStep clsName excl pre st n).cls
      = st.patches.foldr (fun p b => setattrB b p.1 p.2) st.cls := by
  unfold instrStep
  split
  · rfl
  · split
    · rename_i obj heq
      split
      · simp only [wrap_callable, heq, List.foldr_append, List.foldr_cons, List.foldr_nil]
        rw [setattrB_setattrB_orig heq]
      · rfl
    · rfl

/-- Folding the patch stack back over the bindings is invariant under the
whole instrumentation loop. -/
theorem instr_foldl_undo (clsName : String) (excl : List String) (pre : Option String)
    (ms : List String) :
    ∀ st : IState,
      ((ms.foldl (instrStep clsName excl pre) st).patches).foldr
          (fun p b => setattrB b p.1 p.2)
          (ms.foldl (instrStep clsName excl pre) st).cls
        = st.patches.foldr (fun p b => setattrB b p.1 p.2) st.cls := by
  induction ms with
  | nil => intro st; rfl
  | cons n ms ih =>
    intro st
    rw [List.foldl_cons, ih (instrStep clsName excl pre st n), instrStep_undo]

end Tracer

/-- C9: with an empty patch stack to start, instrumenting a type and then
calling restore returns every member to its pre-instrumentation binding (the
state is exactly the original one), and restore is idempotent: a second call
on any state is a no-op. -/
theorem C9_restore_symmetry (st : Tracer.IState) (clsName : String)
    (incl : Option (List String)) (excl : List String) (pre : Option String)
    (h : st.patches = []) :
    Tracer.restore (Tracer.instrument_class st clsName incl excl pre) = st
    ∧ ∀ u : Tracer.IState, Tracer.restore (Tracer.restore u) = Tracer.restore u := by
  constructor
  · unfold Tracer.restore Tracer.instrument_class
    rw [Tracer.instr_foldl_undo clsName excl pre (Tracer.candidates st.cls incl) st, h]
    cases st with
    | mk c ps =>
      simp only at h
      rw [h]
      rfl
  · intro u
    rfl

/-- C9 witness: a one-method class instrumented with the default arguments is
restored to its original state by restore. -/
theorem C9_restore_symmetry_witness :
    Tracer.restore (Tracer.instrument_class ⟨[(("run"), Tracer.PyVal.func 1)], []⟩
        ("C") none Tracer.defaultExclude none)
      = ⟨[(("run"), Tracer.PyVal.func 1)], []⟩ :=
  (C9_restore_symmetry ⟨[(("run"), Tracer.PyVal.func 1)], []⟩ ("C") none
    Tracer.defaultExclude none rfl).1

namespace Tracer

/-- Reading back a freshly set attribute. -/
theorem getattrB_setattrB_self (b : Bindings) (n : String) (v : PyVal) :
    getattrB (setattrB b n v) n = some v := by
  induction b with
  | nil => simp [setattrB, getattrB]
  | cons p rest ih =>
    obtain ⟨m, w⟩ := p
    by_cases hmn : (m == n) = true
    · simp only [setattrB, hmn, if_true, getattrB]
      rw [List.find?_cons_of_pos _ (by simpa using hmn)]
      rfl
    · simp only [setattrB, hmn, if_false, Bool.false_eq_true, getattrB]
      rw [List.find?_cons_of_neg _ (by simpa using hmn)]
      exact ih

/-- Setting one attribute leaves every other attribute unchanged. -/
theorem getattrB_setattrB_ne {m k : String} (b : Bindings) (v : PyVal) (h : m ≠ k) :
    getattrB (setattrB b m v) k = getattrB b k := by
  induction b with
  | nil =>
    simp only [setattrB, getattrB, List.find?]
    have : ((m, v).1 == k) = false := by simpa using h
    simp [this]
  | cons p rest ih =>
    obtain ⟨a, w⟩ := p
    by_cases ham : (a == m) = true
    · have ha : a = m := by simpa using ham
      subst ha
      simp only [setattrB, if_true, beq_self_eq_true, getattrB]
      have hk : (a == k) = false := by simpa using h
      rw [List.find?_cons_of_neg _ (by simp [hk]), List.find?_cons_of_neg _ (by simp [hk])]
    · simp only [setattrB, ham, if_false, Bool.false_eq_true, getattrB]
      by_cases hak : (a == k) = true
      · rw [List.find?_cons_of_pos _ (by simpa using hak),
          List.find?_cons_of_pos _ (by simpa using hak)]
      · rw [List.find?_cons_of_neg _ (by simpa using hak),
          List.find?_cons_of_neg _ (by simpa using hak)]
        exact ih

/-- The callable-resolution match of `instrument_class` as an Option
combinator. -/
theorem match_callable_eq (x : Option PyVal) :
    (match x with
     | some v => v.callable
     | none => false) = (x.map PyVal.callable).getD false := by
  cases x <;> rfl

/-- One instrumentation step preserves which names resolve, and to how
callable a value: wrapping replaces a callable by a callable wrapper and
touches nothing else. -/
theorem instrStep_cstat (clsName : String) (excl : List String) (pre : Option String)
    (st : IState) (n : String) (k : String) :
    (getattrB (instrStep clsName excl pre st n).cls k).map PyVal.callable
      = (getattrB st.cls k).map PyVal.callable := by
  unfold instrStep
  split
  · rfl
  · split
    · rename_i obj heq
      split
      · rename_i hcall
        simp only [wrap_callable, heq]
        by_cases hk : n = k
        · subst hk
          rw [getattrB_setattrB_self, heq]
          dsimp only [Option.map]
          rw [hcall]
          rfl
        · rw [getattrB_setattrB_ne _ _ hk]
      · rfl
    · rfl

/-- okName only depends on presence and callability of the resolved
attribute. -/
theorem okName_congr {b b' : Bindings} (excl : List String)
    (h : ∀ k, (getattrB b' k).map PyVal.callable = (getattrB b k).map PyVal.callable) :
    ∀ m, okName b' excl m = okName b excl m := by
  intro m
  unfold okName
  rw [match_callable_eq, match_callable_eq, h m]

/-- A step on a different name does not change an attribute at all. -/
theorem instrStep_getattr_ne (clsName : String) (excl : List String) (pre : Option String)
    (st : IState) {n k : String} (h : n ≠ k) :
    getattrB (instrStep clsName excl pre st n).cls k = getattrB st.cls k := by
  unfold instrStep
  split
  · rfl
  · split
    · split
      · rename_i obj heq hcall
        simp only [wrap_callable, heq]
        rw [getattrB_setattrB_ne _ _ h]
      · rfl
    · rfl

/-- A step on a name that is excluded, unresolved or non-callable is the
identity: such candidates are skipped silently. -/
theorem instrStep_not_ok (clsName : String) (excl : List String) (pre : Option String)
    (st : IState) {n : String} (h : okName st.cls excl n = false) :
    instrStep clsName excl pre st n = st := by
  unfold okName at h
  unfold instrStep
  by_cases hex : excl.contains n = true
  · rw [if_pos hex]
  · rw [if_neg hex]
    rw [Bool.and_eq_false_iff] at h
    rcases h with h | h
    · exact absurd (by simpa using hex) (by simpa using h)
    · cases heq : getattrB st.cls n with
      | none => rfl
      | some obj =>
        rw [heq] at h
        have hc : obj.callable = false := h
        dsimp only
        rw [if_neg (by simp [hc])]

/-- A step on a selected name pushes exactly one patch record for it and
installs a wrapper labelled `{prefix-or-class-name}.{name}`. -/
theorem instrStep_ok (clsName : String) (excl : List String) (pre : Option String)
    (st : IState) {n : String} (h : okName st.cls excl n = true) :
    (instrStep clsName excl pre st n).patches.map Prod.fst
        = st.patches.map Prod.fst ++ [n]
    ∧ ∃ v, getattrB (instrStep clsName excl pre st n).cls n
        = some (PyVal.wrapped ((labelBase pre clsName) ++ (".") ++ n) v) := by
  unfold okName at h
  rw [Bool.and_eq_true] at h
  obtain ⟨hex, hres⟩ := h
  have hexf : excl.contains n = false := by
    rcases Bool.eq_false_or_eq_true (excl.contains n) with ht | hf
    · rw [ht] at hex
      simp at hex
    · exact hf
  unfold instrStep
  rw [if_neg (by simpa using hexf)]
  cases heq : getattrB st.cls n with
  | none =>
    rw [heq] at hres
    simp at hres
  | some obj =>
    have hcall : obj.callable = true := by
      rw [heq] at hres
      exact hres
    dsimp only
    rw [if_pos hcall]
    constructor
    · simp [wrap_callable, heq]
    · exact ⟨obj, by simp [wrap_callable, heq, getattrB_setattrB_self]⟩

/-- The whole instrumentation loop preserves presence-and-callability of
every attribute. -/
theorem instr_foldl_cstat (clsName : String) (excl : List String) (pre : Option String)
    (ms : List String) :
    ∀ st k, (getattrB ((ms.foldl (instrStep clsName excl pre) st)).cls k).map PyVal.callable
      = (getattrB st.cls k).map PyVal.callable := by
  induction ms with
  | nil => intro st k; rfl
  | cons n ms ih =>
    intro st k
    rw [List.foldl_cons, ih, instrStep_cstat]

/-- Patch-stack contents of the whole loop: one record per selected
candidate, in order, appended after the pre-existing stack. -/
theorem instr_foldl_patches (clsName : String) (excl : List String) (pre : Option String)
    (ms : List String) :
    ∀ st, ((ms.foldl (instrStep clsName excl pre) st)).patches.map Prod.fst
      = st.patches.map Prod.fst ++ ms.filter (okName st.cls excl) := by
  induction ms with
  | nil => intro st; simp
  | cons n ms ih =>
    intro st
    rw [List.foldl_cons, ih (instrStep clsName excl pre st n)]
    have hcongr := okName_congr excl (fun k => instrStep_cstat clsName excl pre st n k)
    rw [List.filter_congr (fun m _ => hcongr m)]
    rcases Bool.eq_false_or_eq_true (okName st.cls excl n) with hok | hnok
    · rw [(instrStep_ok clsName excl pre st hok).1, List.filter_cons_of_pos hok]
      simp
    · rw [instrStep_not_ok clsName excl pre st hnok, List.filter_cons_of_neg (by simp [hnok])]

/-- Attributes outside the selected set keep their bindings through the whole
loop. -/
theorem instr_foldl_unchanged (clsName : String) (excl : List String) (pre : Option String)
    (ms : List String) :
    ∀ st k, k ∉ ms.filter (okName st.cls excl) →
      getattrB ((ms.foldl (instrStep clsName excl pre) st)).cls k = getattrB st.cls k := by
  induction ms with
  | nil => intro st k _; rfl
  | cons n ms ih =>
    intro st k hk
    have hcongr := okName_congr excl (fun j => instrStep_cstat clsName excl pre st n j)
    rw [List.foldl_cons]
    have hk' : k ∉ ms.filter (okName (instrStep clsName excl pre st n).cls excl) := by
      rw [List.filter_congr (fun m _ => hcongr m)]
      intro hmem
      exact hk (by
        rcases Bool.eq_false_or_eq_true (okName st.cls excl n) with hok | hnok
        · rw [List.filter_cons_of_pos hok]
          exact List.mem_cons_of_mem _ hmem
        · rw [List.filter_cons_of_neg (by simp [hnok])]
          exact hmem)
    rw [ih (instrStep clsName excl pre st n) k hk']
    by_cases hnk : n = k
    · subst hnk
      have hnok : okName st.cls excl n = false := by
        rcases Bool.eq_false_or_eq_true (okName st.cls excl n) with hok | hnok
        · exact absurd (by rw [List.filter_cons_of_pos hok]; exact List.mem_cons_self n _) hk
        · exact hnok
      rw [instrStep_not_ok clsName excl pre st hnok]
    · exact instrStep_getattr_ne clsName excl pre st hnk

/-- Every selected candidate ends up bound to a wrapper carrying its
recording label. -/
theorem instr_foldl_wrapped (clsName : String) (excl : List String) (pre : Option String)
    (ms : List String) :
    ∀ st n, n ∈ ms.filter (okName st.cls excl) →
      ∃ v, getattrB ((ms.foldl (instrStep clsName excl pre) st)).cls n
        = some (PyVal.wrapped ((labelBase pre clsName) ++ (".") ++ n) v) := by
  induction ms with
  | nil => intro st n h; simp at h
  | cons m ms ih =>
    intro st n h
    have hcongr := okName_congr excl (fun j => instrStep_cstat clsName excl pre st m j)
    rw [List.foldl_cons]
    by_cases hrest : n ∈ ms.filter (okName st.cls excl)
    · have : n ∈ ms.filter (okName (instrStep clsName excl pre st m).cls excl) := by
        rw [List.filter_congr (fun j _ => hcongr j)]
        exact hrest
      exact ih (instrStep clsName excl pre st m) n this
    · have hm : n = m ∧ okName st.cls excl m = true := by
        rcases Bool.eq_false_or_eq_true (okName st.cls excl m) with hok | hnok
        · rw [List.filter_cons_of_pos hok] at h
          rcases List.mem_cons.mp h with rfl | hmem
          · exact ⟨rfl, hok⟩
          · exact absurd hmem hrest
        · rw [List.filter_cons_of_neg (by simp [hnok])] at h
          exact absurd h hrest
      obtain ⟨rfl, hok⟩ := hm
      obtain ⟨-, v, hv⟩ := instrStep_ok clsName excl pre st hok
      refine ⟨v, ?_⟩
      have hnot : n ∉ ms.filter (okName (instrStep clsName excl pre st n).cls excl) := by
        rw [List.filter_congr (fun j _ => hcongr j)]
        exact hrest
      rw [instr_foldl_unchanged clsName excl pre ms (instrStep clsName excl pre st n) n hnot]
      exact hv

end Tracer

/-- C2 (amended): for every call to instrument_class, the candidate names are
the explicit include list when a non-empty one is given (Python's `include or
default` treats an empty list as absent) and all publicly named members
otherwise; candidates in the exclude set are skipped even when explicitly
included; every remaining candidate that resolves to a callable currently
bound on the type gets exactly one patch record and ends up bound to a
wrapper labelled `{prefix-or-type-name}.{member}`, where an absent or empty
prefix falls back to the type name (`name_prefix or cls.__name__`); all
other members —
non-callable, unresolved, excluded or unselected — keep their bindings
(skipped silently). -/
theorem C2_instrument_class_selection (st : Tracer.IState) (clsName : String)
    (incl : Option (List String)) (excl : List String) (pre : Option String) :
    ((Tracer.instrument_class st clsName incl excl pre).patches.map Prod.fst =
        st.patches.map Prod.fst ++
          (Tracer.candidates st.cls incl).filter (Tracer.okName st.cls excl))
    ∧ (∀ n, n ∈ (Tracer.candidates st.cls incl).filter (Tracer.okName st.cls excl) →
        ∃ v, Tracer.getattrB (Tracer.instrument_class st clsName incl excl pre).cls n =
          some (Tracer.PyVal.wrapped ((Tracer.labelBase pre clsName) ++ (".") ++ n) v))
    ∧ (∀ n, n ∉ (Tracer.candidates st.cls incl).filter (Tracer.okName st.cls excl) →
        Tracer.getattrB (Tracer.instrument_class st clsName incl excl pre).cls n =
          Tracer.getattrB st.cls n) :=
  ⟨Tracer.instr_foldl_patches clsName excl pre (Tracer.candidates st.cls incl) st,
   fun n h => Tracer.instr_foldl_wrapped clsName excl pre (Tracer.candidates st.cls incl) st n h,
   fun n h => Tracer.instr_foldl_unchanged clsName excl pre (Tracer.candidates st.cls incl) st n h⟩

/-- C2 counterexample: "__eq__" is explicitly included, resolves to a
callable bound on the class — by the claim it should be wrapped and recorded
— yet instrument_class leaves the state untouched (no patch record, binding
unchanged), because the exclude set is applied to the include list too. -/
theorem C2_instrument_class_counterexample :
    ("__eq__") ∈ [("__eq__")]
    ∧ Tracer.getattrB [(("__eq__"), Tracer.PyVal.func 0)] ("__eq__")
        = some (Tracer.PyVal.func 0)
    ∧ (Tracer.PyVal.func 0).callable = true
    ∧ Tracer.instrument_class ⟨[(("__eq__"), Tracer.PyVal.func 0)], []⟩ ("C")
        (some [("__eq__")]) Tracer.defaultExclude none
      = ⟨[(("__eq__"), Tracer.PyVal.func 0)], []⟩ := by
  refine ⟨by decide, by decide, by decide, by decide⟩

/-- C2 witness: on a class with a public callable "run" and a non-callable
"data", the public member is wrapped under the class-name label. -/
theorem C2_instrument_class_selection_witness :
    ∃ v, Tracer.getattrB (Tracer.instrument_class
        ⟨[(("run"), Tracer.PyVal.func 0), (("data"), Tracer.PyVal.attr 1)], []⟩
        ("C") none Tracer.defaultExclude none).cls ("run")
      = some (Tracer.PyVal.wrapped ((Tracer.labelBase none ("C")) ++ (".") ++ ("run")) v) :=
  (C2_instrument_class_selection
    ⟨[(("run"), Tracer.PyVal.func 0), (("data"), Tracer.PyVal.attr 1)], []⟩
    ("C") none Tracer.defaultExclude none).2.1 ("run") (by decide)

namespace Tracer

/-- For a single decimal digit, `Nat.digitChar` produces a digit character
that is not whitespace, not a sign, and decodes back to the same value. -/
theorem digitChar_facts {d : Nat} (h : d < 10) :
    (Nat.digitChar d).isDigit = true ∧ Evaluate.digitVal (Nat.digitChar d) = d ∧
    (Nat.digitChar d).isWhitespace = false ∧ Nat.digitChar d ≠ ('-') ∧
    Nat.digitChar d ≠ ('+') := by
  interval_cases d <;> exact ⟨by decide, by decide, by decide, by decide, by decide⟩

/-- Decoding the reversed digit-character rendering of a digit list, with an
accumulator, recovers the positional value. -/
theorem foldl_digitChars (ds : List Nat) (h : ∀ d ∈ ds, d < 10) :
    ∀ a : Nat, ((ds.map Nat.digitChar).reverse).foldl
        (fun acc c => 10 * acc + Evaluate.digitVal c) a
      = a * 10 ^ ds.length + Nat.ofDigits 10 ds := by
  induction ds with
  | nil => intro a; simp [Nat.ofDigits]
  | cons d ds ih =>
    intro a
    have hd : d < 10 := h d (List.mem_cons_self d ds)
    have hds : ∀ x ∈ ds, x < 10 := fun x hx => h x (List.mem_cons_of_mem _ hx)
    simp only [List.map_cons, List.reverse_cons, List.foldl_append, List.foldl_cons,
      List.foldl_nil]
    rw [ih hds]
    rw [(digitChar_facts hd).2.1]
    rw [Nat.ofDigits_cons]
    simp only [List.length_cons, pow_succ]
    ring

/-- The digit run printed for a natural number decodes back to it. -/
theorem decDigits_natChars (n : Nat) :
    Evaluate.decDigits? (natChars n) = some n := by
  unfold natChars
  by_cases h0 : n = 0
  · subst h0
    decide
  · rw [if_neg h0]
    have hne : Nat.digits 10 n ≠ [] := Nat.digits_ne_nil_iff_ne_zero.mpr h0
    have hlt : ∀ d ∈ Nat.digits 10 n, d < 10 :=
      fun d hd => Nat.digits_lt_base (by norm_num) hd
    have hall : ∀ c ∈ ((Nat.digits 10 n).map Nat.digitChar).reverse, c.isDigit = true := by
      intro c hc
      rw [List.mem_reverse] at hc
      rcases List.mem_map.mp hc with ⟨d, hd, rfl⟩
      exact (digitChar_facts (hlt d hd)).1
    unfold Evaluate.decDigits?
    rw [if_pos (by
      rw [Bool.and_eq_true]
      constructor
      · simp [List.isEmpty_iff, List.reverse_eq_nil_iff, List.map_eq_nil_iff, hne]
      · rw [List.all_eq_true]
        intro c hc
        exact hall c hc)]
    rw [foldl_digitChars _ hlt 0]
    simp [Nat.ofDigits_digits]

/-- Every character printed for a natural number is a decimal digit. -/
theorem natChars_all_digit (n : Nat) : ∀ c ∈ natChars n, c.isDigit = true := by
  unfold natChars
  by_cases h0 : n = 0
  · subst h0
    intro c hc
    simp at hc
    subst hc
    decide
  · rw [if_neg h0]
    intro c hc
    rw [List.mem_reverse] at hc
    rcases List.mem_map.mp hc with ⟨d, hd, rfl⟩
    exact (digitChar_facts (Nat.digits_lt_base (by norm_num) hd)).1

/-- The printed digit run is never empty. -/
theorem natChars_ne_nil (n : Nat) : natChars n ≠ [] := by
  unfold natChars
  by_cases h0 : n = 0
  · rw [if_pos h0]
    simp
  · rw [if_neg h0]
    simp [Nat.digits_ne_nil_iff_ne_zero.mpr h0]

/-- A digit character is not whitespace and not a sign. -/
theorem isDigit_not_special {c : Char} (h : c.isDigit = true) :
    c.isWhitespace = false ∧ c ≠ ('-') ∧ c ≠ ('+') := by
  refine ⟨?_, ?_, ?_⟩
  · rcases Bool.eq_false_or_eq_true c.isWhitespace with ht | hf
    · exfalso
      have hcases : c = (' ') ∨ c = ('\t') ∨ c = ('\r') ∨ c = ('\n') := by
        have := by simpa [Char.isWhitespace] using ht
        tauto
      rcases hcases with rfl | rfl | rfl | rfl <;> exact absurd h (by decide)
    · exact hf
  · intro hEq
    rw [hEq] at h
    exact absurd h (by decide)
  · intro hEq
    rw [hEq] at h
    exact absurd h (by decide)

end Tracer

namespace Tracer

/-- dropWhile is the identity when no element satisfies the predicate. -/
theorem dropWhile_eq_self_of_none {p : Char → Bool} {l : List Char}
    (h : ∀ c ∈ l, p c = false) : l.dropWhile p = l := by
  cases l with
  | nil => rfl
  | cons c cs =>
    rw [List.dropWhile_cons, h c (List.mem_cons_self c cs)]
    simp

/-- Stripping is the identity on whitespace-free character lists. -/
theorem pyStrip_eq_self {l : List Char} (h : ∀ c ∈ l, c.isWhitespace = false) :
    Evaluate.pyStrip l = l := by
  unfold Evaluate.pyStrip
  rw [dropWhile_eq_self_of_none h]
  rw [dropWhile_eq_self_of_none (fun c hc => h c (List.mem_reverse.mp hc))]
  exact List.reverse_reverse l

/-- No character printed for an integer is whitespace. -/
theorem intChars_no_ws (i : Int) : ∀ c ∈ intChars i, c.isWhitespace = false := by
  unfold intChars
  by_cases hneg : i < 0
  · rw [if_pos hneg]
    intro c hc
    rcases List.mem_cons.mp hc with rfl | hmem
    · decide
    · exact (isDigit_not_special (natChars_all_digit _ c hmem)).1
  · rw [if_neg hneg]
    intro c hc
    exact (isDigit_not_special (natChars_all_digit _ c hc)).1

/-- Evaluation of the integer parser on a stripped, explicitly non-blank
character list. -/
theorem pyIntChars_cons (c : Char) (cs : List Char)
    (h : ∀ x ∈ c :: cs, x.isWhitespace = false) :
    Evaluate.pyIntChars? (c :: cs) =
      if c = ('-') then (Evaluate.decDigits? cs).map (fun n => -(n : Int))
      else if c = ('+') then (Evaluate.decDigits? cs).map (fun n => (n : Int))
      else (Evaluate.decDigits? (c :: cs)).map (fun n => (n : Int)) := by
  unfold Evaluate.pyIntChars?
  rw [pyStrip_eq_self h]

/-- Round trip: Python `int(str(i))` recovers `i` exactly. -/
theorem pyInt_istr (i : Int) : Evaluate.pyInt? (istr i) = some i := by
  show Evaluate.pyIntChars? (intChars i) = some i
  by_cases hneg : i < 0
  · have hshape : intChars i = ('-') :: natChars i.natAbs := by
      unfold intChars
      rw [if_pos hneg]
    have hws := intChars_no_ws i
    rw [hshape] at hws ⊢
    rw [pyIntChars_cons _ _ hws, if_pos rfl, decDigits_natChars]
    show some (-(i.natAbs : Int)) = some i
    exact congrArg some (by omega)
  · have hshape : intChars i = natChars i.toNat := by
      unfold intChars
      rw [if_neg hneg]
    have hws := intChars_no_ws i
    rw [hshape] at hws ⊢
    obtain ⟨c, cs, hc⟩ : ∃ c cs, natChars i.toNat = c :: cs := by
      cases hnc : natChars i.toNat with
      | nil => exact absurd hnc (natChars_ne_nil _)
      | cons c cs => exact ⟨c, cs, rfl⟩
    rw [hc] at hws ⊢
    have hdig : c.isDigit = true :=
      natChars_all_digit i.toNat c (by rw [hc]; exact List.mem_cons_self c cs)
    have hspec := isDigit_not_special hdig
    rw [pyIntChars_cons _ _ hws, if_neg hspec.2.1, if_neg hspec.2.2, ← hc,
      decDigits_natChars]
    show some ((i.toNat : Int)) = some i
    exact congrArg some (by omega)

/-- Parsing back one exported CSV data row recovers the span's projected
fields. -/
theorem parse_row_csv (s : Span) :
    Evaluate.parse_row ⟨some s.kind, some s.name, some (istr s.wall_ns)⟩
      = Except.ok ⟨s.kind, s.name, s.wall_ns⟩ := by
  unfold Evaluate.parse_row
  dsimp only
  rw [pyInt_istr]

/-- The DictReader view of the tabular export: one raw record per span, with
the three required columns resolved from the fixed header. -/
theorem read_raw_save (spans : List Span) :
    read_raw (save_csv spans)
      = spans.map (fun s => ⟨some s.kind, some s.name, some (istr s.wall_ns)⟩) := by
  rw [show read_raw (save_csv spans)
      = (spans.map csvCells).map (fun cells =>
          (⟨dictGet csv_header cells ("kind"), dictGet csv_header cells ("name"),
            dictGet csv_header cells ("wall_ns")⟩ : Evaluate.RawRec)) from rfl,
    List.map_map]
  rfl

/-- Loading the tabular export of a ledger succeeds and yields exactly the
ledger's (kind, name, wall_ns) rows in ledger order. -/
theorem load_save (spans : List Span) :
    Evaluate.load_rows (read_raw (save_csv spans))
      = Except.ok (spans.map (fun s => ⟨s.kind, s.name, s.wall_ns⟩)) := by
  rw [read_raw_save]
  induction spans with
  | nil => rfl
  | cons s ss ih =>
    simp only [List.map_cons, Evaluate.load_rows, parse_row_csv, ih]

end Tracer

/-- C8: decoding the tabular export and the structured export of the same
ledger snapshot both succeed and yield the ledger's (kind, name, wall_ns)
triples — every entry exactly once, in ledger order — so the two decoded
sequences are equal. -/
theorem C8_export_roundtrip (spans : List Tracer.Span) :
    Tracer.decode_tabular (Tracer.save_csv spans)
        = Except.ok (spans.map Tracer.spanTriple)
    ∧ Tracer.decode_structured (Tracer.save_json spans) = spans.map Tracer.spanTriple := by
  constructor
  · unfold Tracer.decode_tabular
    rw [Tracer.load_save]
    simp only [Except.map, List.map_map]
    rfl
  · unfold Tracer.decode_structured Tracer.save_json
    rw [List.map_map]
    rfl

/-- C10 counterexample: the loader happily returns a Row with negative
wall_ns from a hand-written record, so the claimed invariant does not hold
for every loadable input. -/
theorem C10_wall_nonneg_counterexample :
    Evaluate.load_rows [⟨some ("api"), some ("A"), some ("-5")⟩]
      = Except.ok [⟨("api"), ("A"), (-5 : Int)⟩]
    ∧ ((-5 : Int) < 0) := by
  exact ⟨by rfl, by decide⟩

/-- C10 (amended): rows loaded from the tabular export of a ledger whose
spans all have nonnegative wall_ns satisfy wall_ns ≥ 0; the loader itself
enforces nothing. -/
theorem C10_wall_nonneg_amended (spans : List Tracer.Span)
    (h : ∀ s ∈ spans, 0 ≤ s.wall_ns) :
    ∃ rows, Evaluate.load_rows (Tracer.read_raw (Tracer.save_csv spans)) = Except.ok rows
      ∧ ∀ r ∈ rows, 0 ≤ r.wall_ns := by
  refine ⟨spans.map (fun s => ⟨s.kind, s.name, s.wall_ns⟩), Tracer.load_save spans, ?_⟩
  intro r hr
  rcases List.mem_map.mp hr with ⟨s, hs, rfl⟩
  exact h s hs

/-- C10 witness: a one-span ledger with wall_ns 5 loads back with the
invariant intact. -/
theorem C10_wall_nonneg_amended_witness :
    ∃ rows, Evaluate.load_rows (Tracer.read_raw (Tracer.save_csv
        [⟨("api"), ("A"), 0, 5, 5, 0, 3, 3, []⟩])) = Except.ok rows
      ∧ ∀ r ∈ rows, 0 ≤ r.wall_ns :=
  C10_wall_nonneg_amended [⟨("api"), ("A"), 0, 5, 5, 0, 3, 3, []⟩] (by decide)
